import Mathlib

/-! Verification of a go-git style object model (tree decoding, path lookup,
lazy file traversal) and of the SSH transport session (auth selection and the
connect lifecycle), shallowly embedded from the Go sources.

Modelling conventions: Go byte strings are lists of naturals (one per byte);
Go maps are association lists whose insertion replaces an existing binding;
the buffered reader over an object's content is modelled as exact reads over
the remaining byte list (faithful for streams that fit in one buffer fill);
a Go runtime panic is an explicit outcome constructor; goroutine/channel
emission is modelled as the list of values sent before the channel closes. -/

namespace GoGit

/-- Byte strings (Go `string` / `[]byte`), one natural number per byte. -/
abbrev Bytes := List Nat

/-- 20-byte object digests (`core.Hash`). -/
abbrev Hash := Bytes

/-- Object kinds (`core.ObjectType`). -/
inductive ObjType
  | blob
  | tree
  | commit
  | tag
deriving DecidableEq, Repr

/-- A stored object (`core.Object`): its kind, declared size, content bytes
and its own hash. -/
structure Obj where
  type : ObjType
  size : Nat
  content : Bytes
  hash : Hash
deriving DecidableEq, Repr

/-- The external object store (`Repository.Storage.Get`): a hash resolves to
at most one object. -/
abbrev Store := Hash → Option Obj

/-- `strings.Split(p, "/")` on byte strings: always returns a non-empty list
of (possibly empty) segments. -/
def splitOnByte (c : Nat) : Bytes → List Bytes
  | [] => [[]]
  | b :: bs =>
    match splitOnByte c bs with
    | [] => [[]]
    | s :: ss => if b = c then [] :: s :: ss else (b :: s) :: ss

/-- `strings.Join(segs, "/")` on byte strings. -/
def joinSegs : List Bytes → Bytes
  | [] => []
  | [s] => s
  | s :: ss => s ++ 47 :: joinSegs ss

/-- The `.` path segment. -/
def dotSeg : Bytes := [46]

/-- The `..` path segment. -/
def dotdotSeg : Bytes := [46, 46]

/-- One step of the lexical cleanup performed by Go `path/filepath.Clean`:
the accumulator is the stack of kept segments, most recent first. -/
def cleanStep (rooted : Bool) (acc : List Bytes) (s : Bytes) : List Bytes :=
  if s = [] ∨ s = dotSeg then acc
  else if s = dotdotSeg then
    match acc with
    | [] => if rooted then [] else [dotdotSeg]
    | t :: ts => if t = dotdotSeg then dotdotSeg :: t :: ts else ts
  else s :: acc

/-- Go `filepath.Clean` (unix rules) on byte strings: split on `/`, drop
empty and `.` segments, resolve `..`, rejoin; the empty path cleans to `.`
and a rooted path keeps its leading `/`. -/
def clean (p : Bytes) : Bytes :=
  let rooted := p.head? = some 47
  let kept := ((splitOnByte 47 p).foldl (cleanStep rooted) []).reverse
  if rooted then 47 :: joinSegs kept
  else if kept = [] then dotSeg
  else joinSegs kept

/-- Go `filepath.Join(a, b)`: empty elements are skipped before joining with
`/` and the result is cleaned; `Join("", "") = ""`. -/
def goJoin (a b : Bytes) : Bytes :=
  if a ≠ [] then clean (a ++ 47 :: b)
  else if b ≠ [] then clean b
  else []

/-- A path segment that `filepath.Clean` keeps verbatim: non-empty, without
`/`, and neither `.` nor `..`.  Ordinary git tree entry names satisfy this. -/
def wfSeg (s : Bytes) : Prop :=
  s ≠ [] ∧ ¬ 47 ∈ s ∧ s ≠ dotSeg ∧ s ≠ dotdotSeg

instance (s : Bytes) : Decidable (wfSeg s) := by
  unfold wfSeg
  infer_instance

/-- A tree entry (`TreeEntry`): name, file mode and referenced hash. -/
structure TreeEntry where
  name : Bytes
  mode : Nat
  hash : Hash
deriving DecidableEq, Repr

/-- The `map[string]TreeEntry` of a tree, as an association list whose keys
are unique (Go map semantics). -/
abbrev Entries := List (Bytes × TreeEntry)

/-- Go map assignment `m[k] = v`: replace an existing binding in place, else
append. -/
def mapInsert : Entries → Bytes → TreeEntry → Entries
  | [], k, v => [(k, v)]
  | (k', v') :: rest, k, v =>
    if k' = k then (k, v) :: rest else (k', v') :: mapInsert rest k v

/-- Go map lookup `m[k]`. -/
def lookupEntry : Entries → Bytes → Option TreeEntry
  | [], _ => none
  | (k', v) :: rest, k => if k' = k then some v else lookupEntry rest k

/-- A `Tree`: a directory snapshot.  The `*Repository` back pointer of the Go
struct is passed explicitly as a `Store` argument to the operations. -/
structure Tree where
  entries : Entries
  hash : Hash
deriving DecidableEq, Repr

/-- A `File`: transient projection produced by lookup or traversal.  The
reader over the blob content is omitted; only name, hash and size are
claim-relevant. -/
structure File where
  name : Bytes
  hash : Hash
  size : Nat
deriving DecidableEq, Repr

/-- Modelled from the spec: the `Blob` type and its `Decode` are referenced
but not included in the given sources; per the spec a blob exposes the
object's declared size (and a reader over its content, omitted here). -/
structure Blob where
  size : Nat
deriving DecidableEq, Repr

/-- Modelled from the spec: `Blob.Decode` takes the blob's size from the
decoded object. -/
def Blob.Decode (o : Obj) : Blob := ⟨o.size⟩

/-- `bufio.Reader.ReadString(delim)`: returns the data read up to and
including the delimiter, whether the delimiter was found (`false` means the
read stopped at end of input, Go's `io.EOF`), and the remaining bytes. -/
def readString (c : Nat) : Bytes → Bytes × Bool × Bytes
  | [] => ([], false, [])
  | b :: bs =>
    if b = c then ([b], true, bs)
    else
      match readString c bs with
      | (d, f, r) => (b :: d, f, r)

theorem readString_append (c : Nat) (bs : Bytes) :
    (readString c bs).1 ++ (readString c bs).2.2 = bs := by
  induction bs with
  | nil => simp [readString]
  | cons b bs ih =>
    by_cases h : b = c
    · simp [readString, h]
    · simp only [readString, if_neg h]
      cases hr : readString c bs with
      | mk d fr =>
        cases fr with
        | mk f r =>
          simp only [hr] at ih
          simpa using ih

theorem readString_found_ne (c : Nat) (bs : Bytes) :
    (readString c bs).2.1 = true → (readString c bs).1 ≠ [] := by
  induction bs with
  | nil => simp [readString]
  | cons b bs ih =>
    by_cases h : b = c
    · simp [readString, h]
    · simp only [readString, if_neg h]
      cases hr : readString c bs with
      | mk d fr =>
        cases fr with
        | mk f r => simp

theorem readString_found_len (c : Nat) (bs : Bytes) :
    (readString c bs).2.1 = true → (readString c bs).2.2.length < bs.length := by
  intro h
  have happ := readString_append c bs
  have hne := readString_found_ne c bs h
  have : (readString c bs).1.length + (readString c bs).2.2.length = bs.length := by
    rw [← List.length_append, happ]
  have hpos : 0 < (readString c bs).1.length := List.length_pos.mpr hne
  omega

theorem readString_rest_le (c : Nat) (bs : Bytes) :
    (readString c bs).2.2.length ≤ bs.length := by
  have happ := readString_append c bs
  have : (readString c bs).1.length + (readString c bs).2.2.length = bs.length := by
    rw [← List.length_append, happ]
  omega

/-- Octal digit accumulation for `strconv.ParseInt(s, 8, 32)`. -/
def octDigits : Bytes → Nat → Option Nat
  | [], acc => some acc
  | d :: ds, acc =>
    if 48 ≤ d ∧ d ≤ 55 then octDigits ds (acc * 8 + (d - 48)) else none

/-- `strconv.ParseInt(s, 8, 32)`: optional sign, non-empty octal digit
string, result must fit in a signed 32-bit integer; `none` is any returned
error (syntax or range). -/
def parseOctInt (s : Bytes) : Option Int :=
  match s with
  | [] => none
  | c :: rest =>
    let digits := if c = 45 ∨ c = 43 then rest else s
    if digits = [] then none
    else
      match octDigits digits 0 with
      | none => none
      | some v =>
        if c = 45 then (if v ≤ 2 ^ 31 then some (-(v : Int)) else none)
        else (if v < 2 ^ 31 then some (v : Int) else none)

/-- Outcome of `Tree.Decode`: success or a returned error, each carrying the
entries accumulated so far (the Go method fills the receiver's map in place,
so a caller that ignores the error still sees the partial entries), or a
runtime panic (`name[:len(name)-1]` on an empty read). -/
inductive PDecode
  | ok (es : Entries)
  | decodeErr (es : Entries)
  | panicked
deriving DecidableEq, Repr

/-- The record loop of `Tree.Decode`: read `<octal-mode> ' ' <name> NUL
<20-byte hash>` repeatedly; a read that stops at end of input mid-mode breaks
the loop successfully, a missing NUL or short hash read is tolerated (the Go
code ignores `io.EOF` there), and a mode parse failure is a returned error. -/
def decodeLoop (bs : Bytes) (acc : Entries) : PDecode :=
  if hfound : (readString 32 bs).2.1 = false then .ok acc
  else
    let mode := (readString 32 bs).1
    let r1 := (readString 32 bs).2.2
    match parseOctInt mode.dropLast with
    | none => .decodeErr acc
    | some fm =>
      let name := (readString 0 r1).1
      let r2 := (readString 0 r1).2.2
      if name = [] then .panicked
      else
        let baseName := name.dropLast
        decodeLoop (r2.drop 20)
          (mapInsert acc baseName
            ⟨baseName, (fm % (2 ^ 32 : Int)).toNat,
              r2.take 20 ++ List.replicate (20 - r2.length) 0⟩)
termination_by bs.length
decreasing_by
  have hfound' : (readString 32 bs).2.1 = true := by
    simpa using hfound
  have hlen1 : (readString 32 bs).2.2.length < bs.length :=
    readString_found_len 32 bs hfound'
  have hlen2 : (readString 0 (readString 32 bs).2.2).2.2.length ≤
      (readString 32 bs).2.2.length :=
    readString_rest_le 0 (readString 32 bs).2.2
  have := List.length_drop 20 (readString 0 (readString 32 bs).2.2).2.2
  omega

/-- `Tree.Decode` on a fresh receiver: a declared size of zero short-circuits
to success with no entries; otherwise the record loop runs on the content. -/
def Tree.Decode (o : Obj) : PDecode :=
  if o.size = 0 then .ok [] else decodeLoop o.content []

/-- The entries visible in the receiver after `Tree.Decode`, whether or not
the returned error was nil (callers `dir` and `walkEntries` ignore it). -/
def pentries : PDecode → Entries
  | .ok es => es
  | .decodeErr es => es
  | .panicked => []

/-- One encoded tree record: `<octal-mode> ' ' <name> NUL <20-byte hash>`. -/
def encRecord (m n h : Bytes) : Bytes := m ++ 32 :: (n ++ 0 :: h)

/-- Well-formed pieces of a record: a mode that `ParseInt` accepts (hence
free of the space byte, also required explicitly), a NUL-free name, and a
hash of exactly 20 bytes. -/
def wfRecord : Bytes × Bytes × Bytes → Prop
  | (m, n, h) =>
    (parseOctInt m).isSome = true ∧ ¬ 32 ∈ m ∧ ¬ 0 ∈ n ∧ h.length = 20

instance (r : Bytes × Bytes × Bytes) : Decidable (wfRecord r) := by
  rcases r with ⟨m, n, h⟩
  unfold wfRecord
  infer_instance

/-- Concatenation of encoded records. -/
def encRecords : List (Bytes × Bytes × Bytes) → Bytes
  | [] => []
  | (m, n, h) :: rs => encRecord m n h ++ encRecords rs

/-- The internal lookup errors (`errDirNotFound`, `errEntryNotFound`); both
are mapped to `ErrFileNotFound` by `Tree.File`. -/
inductive LookupErr
  | dirNotFound
  | entryNotFound
deriving DecidableEq, Repr

/-- Result of an internal lookup step: success, a returned error, or a
propagated runtime panic. -/
inductive ResP (α : Type)
  | ok (a : α)
  | err (e : LookupErr)
  | panicked
deriving DecidableEq, Repr

/-- `Tree.entry(baseName)`: map lookup; `none` is `errEntryNotFound`. -/
def Tree.entry (t : Tree) (baseName : Bytes) : Option TreeEntry :=
  lookupEntry t.entries baseName

/-- `Tree.dir(baseName)`: resolve an entry as a subtree — entry lookup, store
fetch, tree type check, then `Decode` on a fresh tree whose returned error is
ignored (the partial entries are used); every failure is `errDirNotFound`. -/
def Tree.dir (t : Tree) (store : Store) (baseName : Bytes) : ResP Tree :=
  match t.entry baseName with
  | none => .err .dirNotFound
  | some e =>
    match store e.hash with
    | none => .err .dirNotFound
    | some o =>
      if o.type = ObjType.tree then
        match Tree.Decode o with
        | .panicked => .panicked
        | d => .ok ⟨pentries d, o.hash⟩
      else .err .dirNotFound

/-- The loop of `Tree.findHash`: descend through `dir` while more than one
path segment remains, then look the final segment up in the current tree.
Indexing `pathParts[0]` on an empty slice would panic (unreachable from
`findHash` since `strings.Split` never returns an empty slice). -/
def Tree.findHashLoop (store : Store) : Tree → List Bytes → ResP Hash
  | _, [] => .panicked
  | t, [p] =>
    match t.entry p with
    | none => .err .entryNotFound
    | some e => .ok e.hash
  | t, p :: rest =>
    match t.dir store p with
    | .ok t' => Tree.findHashLoop store t' rest
    | .err e => .err e
    | .panicked => .panicked

/-- `Tree.findHash(path)`: split the path on `/` and run the segment loop. -/
def Tree.findHash (t : Tree) (store : Store) (path : Bytes) : ResP Hash :=
  Tree.findHashLoop store t (splitOnByte 47 path)

/-- The observable outcome of `Tree.File`: a returned file, the single error
value `ErrFileNotFound`, or a propagated runtime panic. -/
inductive FileOutcome
  | ok (f : File)
  | fileNotFound
  | panicked
deriving DecidableEq, Repr

/-- `Tree.File(path)`: resolve the path to a hash (any lookup error becomes
`ErrFileNotFound`), fetch the object (absence: `ErrFileNotFound`), require a
blob (otherwise `ErrFileNotFound`), and build the `File` from the original
path, the resolved hash and the decoded blob's size. -/
def Tree.File (t : Tree) (store : Store) (path : Bytes) : FileOutcome :=
  match t.findHash store path with
  | .panicked => .panicked
  | .err _ => .fileNotFound
  | .ok h =>
    match store h with
    | none => .fileNotFound
    | some o =>
      if o.type = ObjType.blob then .ok ⟨path, h, (Blob.Decode o).size⟩
      else .fileNotFound

/-- Outcome of the traversal producer: the files sent to the channel before
it closes, a propagated runtime panic (the channel then never closes), or
exhaustion of the recursion-depth fuel (the Go recursion has no bound; `ok`
results are fuel-independent once the fuel is large enough). -/
inductive WalkRes
  | ok (fs : List File)
  | panicked
  | noFuel
deriving DecidableEq, Repr

/-- The body of `Tree.walkEntries(base, ch)`, iterating over the entry list:
an entry whose hash is absent from the store is skipped; a tree-typed entry
is decoded (error ignored) and recursed into under `filepath.Join(base,
entry.Name)`; any other entry is emitted as a file with the entry's hash and
the decoded blob's size.  `fuel` bounds only the recursion depth. -/
def walkList (store : Store) : Nat → Bytes → Entries → WalkRes
  | _, _, [] => .ok []
  | fuel, base, (_, e) :: rest =>
    match store e.hash with
    | none => walkList store fuel base rest
    | some o =>
      if o.type = ObjType.tree then
        match fuel with
        | 0 => .noFuel
        | fuel' + 1 =>
          if Tree.Decode o = .panicked then .panicked
          else
            match walkList store fuel' (goJoin base e.name) (pentries (Tree.Decode o)) with
            | .ok fs1 =>
              match walkList store (fuel' + 1) base rest with
              | .ok fs2 => .ok (fs1 ++ fs2)
              | r => r
            | r => r
      else
        match walkList store fuel base rest with
        | .ok fs2 => .ok (⟨goJoin base e.name, e.hash, (Blob.Decode o).size⟩ :: fs2)
        | r => r
termination_by fuel _ es => (fuel, es.length)
decreasing_by
  all_goals first
    | (apply Prod.Lex.left; omega)
    | (apply Prod.Lex.right; simp)

/-- `Tree.Files()`: the producer goroutine walks the tree from base `""` and
closes the channel when done; the result lists the emitted files in emission
order (Go map iteration order is unspecified; the claims are set-level). -/
def Tree.Files (t : Tree) (store : Store) (fuel : Nat) : WalkRes :=
  walkList store fuel [] t.entries

/-- Reference definition following the spec's words: a leaf reachable from an
entry list through the store.  An entry whose object satisfies the type
predicate `P` is a leaf at the joined path, carrying the entry's hash and the
object's (= blob's) size; an entry resolving to a tree object leads to the
leaves of that tree's decoded entries under the extended base path; an entry
whose hash is absent from the store reaches nothing. -/
inductive Leaf (store : Store) (P : ObjType → Prop) : Entries → Bytes → File → Prop
  | here (es : Entries) (base n : Bytes) (e : TreeEntry) (o : Obj) :
      (n, e) ∈ es → store e.hash = some o → P o.type →
      Leaf store P es base ⟨goJoin base e.name, e.hash, o.size⟩
  | there (es : Entries) (base n : Bytes) (e : TreeEntry) (o : Obj) (f : File) :
      (n, e) ∈ es → store e.hash = some o → o.type = ObjType.tree →
      Leaf store P (pentries (Tree.Decode o)) (goJoin base e.name) f →
      Leaf store P es base f

/-- Well-formed entry list: unique keys (Go map semantics), each entry's
`Name` field equal to its key, and each key a clean-neutral path segment. -/
def wfEntries (es : Entries) : Prop :=
  (es.map Prod.fst).Nodup ∧ ∀ p ∈ es, p.2.name = p.1 ∧ wfSeg p.1

/-- Stores whose tree objects decode to clean-neutral entry names (uniqueness
and the name/key agreement of decoded entries hold by construction). -/
def wfNames (store : Store) : Prop :=
  ∀ h o, store h = some o → o.type = ObjType.tree →
    ∀ p ∈ pentries (Tree.Decode o), wfSeg p.1

/-- The segments a base path contributes to a joined path (none for the
empty starting base). -/
def baseSegs (base : Bytes) : List Bytes :=
  if base = [] then [] else splitOnByte 47 base

/-- A base path as produced by the traversal: empty, or made of clean-neutral
segments. -/
def wfBase (base : Bytes) : Prop :=
  base = [] ∨ ∀ s ∈ splitOnByte 47 base, wfSeg s

/-- The traversal invariant tying an emitted file back to the entry list it
was emitted from: the file is a non-tree leaf in the sense of the spec, its
path splits into the base segments followed by a key path starting at some
entry of the list, `findHash` resolves that key path to the file's hash, and
the stored object there is a non-tree object of the file's size. -/
def SoundAt (store : Store) (es : Entries) (base : Bytes) (f : File) : Prop :=
  Leaf store (fun ty => ¬ ty = ObjType.tree) es base f ∧
  ∃ n e segs, (n, e) ∈ es ∧
    splitOnByte 47 f.name = baseSegs base ++ n :: segs ∧
    (∀ th : Hash, Tree.findHashLoop store ⟨es, th⟩ (n :: segs) = .ok f.hash) ∧
    ∃ o, store f.hash = some o ∧ ¬ o.type = ObjType.tree ∧ f.size = o.size

/-- The successful prefix of a `findHash` descent: starting at tree `t` with
remaining segments `segs`, the loop steps through `dir` (taken only while
more than one segment remains, as the loop condition `len(pathParts) > 1`
dictates) and arrives at tree `t'` with remaining segments `segs'`. -/
inductive Reaches (store : Store) : Tree → List Bytes → Tree → List Bytes → Prop
  | refl (t : Tree) (segs : List Bytes) : Reaches store t segs t segs
  | step (t t' t'' : Tree) (p : Bytes) (rest segs'' : List Bytes) :
      rest ≠ [] → t.dir store p = .ok t' →
      Reaches store t' rest t'' segs'' → Reaches store t (p :: rest) t'' segs''

/-- Modelled from the spec: `transport.Endpoint` (not in the given sources)
is the parsed remote address; only the optional user name and the host
(which, as used by `getHostWithPort`, may already carry a `:port` suffix)
matter to the session code. -/
structure Endpoint where
  user : Option Bytes
  host : Bytes
deriving DecidableEq, Repr

/-- Modelled from the spec: the SSH `AuthMethod` variants (agent-based public
key, explicit key file, password); the concrete types are not in the given
sources. -/
inductive AuthMethod
  | agent (user : Bytes)
  | keyFile (user : Bytes) (path : Bytes)
  | password (user : Bytes) (pass : Bytes)
deriving DecidableEq, Repr

/-- Modelled from the spec: the opaque `ssh.ClientConfig` produced by an
`AuthMethod`'s `clientConfig()`. -/
structure ClientConfig where
  method : AuthMethod
deriving DecidableEq, Repr

/-- `AuthMethod.clientConfig()` — modelled from the spec as the wrapper of
the producing method. -/
def AuthMethod.clientConfig (a : AuthMethod) : ClientConfig := ⟨a⟩

/-- A `transport.AuthMethod` value handed to `SetAuth`: either an SSH
`AuthMethod` or a value of some other implementation of the interface. -/
inductive TransportAuthMethod
  | sshAuth (a : AuthMethod)
  | other (tag : Bytes)
deriving DecidableEq, Repr

/-- The error values of the ssh transport layer that the modelled operations
can return. -/
inductive SessionErr
  | alreadyConnected
  | invalidAuthMethod
  | agentAuthFailed
  | dialFailed
  | openSessionFailed
  | stdinPipeFailed
  | stdoutPipeFailed
deriving DecidableEq, Repr

/-- The mutable `session` struct: connection flag, endpoint, handles for the
network client, the command channel and its pipes (numeric ids stand for the
Go pointers), and the stored auth method. -/
structure SessionState where
  connected : Bool
  endpoint : Endpoint
  client : Option Nat
  sshSession : Option Nat
  stdin : Option Nat
  stdout : Option Nat
  auth : Option AuthMethod
deriving DecidableEq, Repr

/-- The environment of external effects: `NewSSHAgentAuth` (modelled from the
spec: builds the agent-based method for a user name, can fail), `ssh.Dial`,
`client.NewSession`, and the two pipe constructors; `none` is a returned
error. -/
structure World where
  agentAuth : Bytes → Option AuthMethod
  dial : Bytes → ClientConfig → Option Nat
  newSession : Option Nat → Option Nat
  stdinPipe : Option Nat → Option Nat
  stdoutPipe : Option Nat → Option Nat

/-- `session.SetAuth(auth)`: a non-SSH method is rejected with
`transport.ErrInvalidAuthMethod` and nothing is stored; an SSH method is
stored in the `auth` field. -/
def session.SetAuth (s : SessionState) (a : TransportAuthMethod) :
    SessionState × Option SessionErr :=
  match a with
  | .sshAuth m => ({ s with auth := some m }, none)
  | .other _ => (s, some .invalidAuthMethod)

/-- `session.getHostWithPort()`: append `":22"` unless the endpoint host
already contains a colon. -/
def session.getHostWithPort (ep : Endpoint) : Bytes :=
  if 58 ∈ ep.host then ep.host else ep.host ++ [58, 50, 50]

/-- `session.setAuthFromEndpoint()`: always derives a fresh agent-based auth
method from the endpoint's user name and assigns it to `s.auth` (on error the
assignment leaves `nil`). -/
def session.setAuthFromEndpoint (w : World) (s : SessionState) :
    SessionState × Option SessionErr :=
  let u := s.endpoint.user.getD []
  match w.agentAuth u with
  | none => ({ s with auth := none }, some .agentAuthFailed)
  | some a => ({ s with auth := some a }, none)

/-- `session.openSSHSession()`: open the command channel on the client, then
its stdin and stdout pipes, failing at the first error. -/
def session.openSSHSession (w : World) (s : SessionState) :
    SessionState × Option SessionErr :=
  match w.newSession s.client with
  | none => (s, some .openSessionFailed)
  | some ch =>
    let s1 := { s with sshSession := some ch }
    match w.stdinPipe s1.sshSession with
    | none => (s1, some .stdinPipeFailed)
    | some si =>
      let s2 := { s1 with stdin := some si }
      match w.stdoutPipe s2.sshSession with
      | none => (s2, some .stdoutPipeFailed)
      | some so => ({ s2 with stdout := some so }, none)

/-- Result of `session.connect()`: final state, returned error, network
client handles opened during the call, and handles explicitly closed during
the call. -/
structure ConnectResult where
  state : SessionState
  err : Option SessionErr
  opened : List Nat
  closed : List Nat
deriving DecidableEq, Repr

/-- `session.connect()`: fail fast if already connected; derive the auth via
`setAuthFromEndpoint` (unconditionally — the stored auth is overwritten even
when `SetAuth` was called); dial with the derived config; open the command
channel, closing the dialed client if that fails; only then mark connected. -/
def session.connect (w : World) (s : SessionState) : ConnectResult :=
  if s.connected then ⟨s, some .alreadyConnected, [], []⟩
  else
    match session.setAuthFromEndpoint w s with
    | (s1, some e) => ⟨s1, some e, [], []⟩
    | (s1, none) =>
      match s1.auth with
      | none => ⟨s1, some .agentAuthFailed, [], []⟩
      | some a =>
        match w.dial (session.getHostWithPort s1.endpoint) a.clientConfig with
        | none => ⟨{ s1 with client := none }, some .dialFailed, [], []⟩
        | some c =>
          let s2 := { s1 with client := some c }
          match session.openSSHSession w s2 with
          | (s3, some e) => ⟨s3, some e, [c], [c]⟩
          | (s3, none) => ⟨{ s3 with connected := true }, none, [c], []⟩

/-- `session.Close()`: a no-op when not connected; otherwise clear the flag
and close the client (the closed handle is returned). -/
def session.Close (s : SessionState) : SessionState × List Nat :=
  if s.connected then ({ s with connected := false }, s.client.toList)
  else (s, [])

/-! ### Concrete fixtures used to instantiate the theorems -/

/-- Sample blob hash. -/
def hB : Hash := List.replicate 20 1

/-- Sample subtree hash. -/
def hT : Hash := List.replicate 20 2

/-- Sample hash absent from the store (a submodule reference). -/
def hS : Hash := List.replicate 20 3

/-- Sample commit hash. -/
def hC : Hash := List.replicate 20 4

/-- Encoded record `"100644 b\0" ++ hB` of the sample subtree. -/
def subContent : Bytes := [49, 48, 48, 54, 52, 52, 32, 98, 0] ++ hB

/-- Sample store: a blob at `hB`, a tree (containing `b ↦ hB`) at `hT`, a
commit object at `hC`, nothing at `hS`. -/
def cstore : Store := fun h =>
  if h = hB then some ⟨ObjType.blob, 5, [1, 2, 3, 4, 5], hB⟩
  else if h = hT then some ⟨ObjType.tree, subContent.length, subContent, hT⟩
  else if h = hC then some ⟨ObjType.commit, 9, [], hC⟩
  else none

/-- Sample root tree: `a ↦ hT` (a directory), `c ↦ hC` (a commit-typed
entry), `s ↦ hS` (an unresolvable submodule). -/
def ctree : Tree :=
  ⟨[([97], ⟨[97], 16384, hT⟩), ([99], ⟨[99], 33188, hC⟩),
    ([115], ⟨[115], 57344, hS⟩)], List.replicate 20 9⟩

/-- The files the sample traversal emits: `a/b` (the blob) and `c` (the
commit-typed entry). -/
def cfiles : List File := [⟨[97, 47, 98], hB, 5⟩, ⟨[99], hC, 9⟩]

/-- Sample endpoint with user `git`. -/
def cendpoint : Endpoint := ⟨some [103, 105, 116], [104]⟩

/-- Sample world in which every external step succeeds and the agent derives
an agent-based method from the user name. -/
def cworld : World where
  agentAuth := fun u => some (.agent u)
  dial := fun _ _ => some 1
  newSession := fun _ => some 2
  stdinPipe := fun _ => some 3
  stdoutPipe := fun _ => some 4

/-- Sample world in which dialing fails. -/
def cworldDialFail : World where
  agentAuth := fun u => some (.agent u)
  dial := fun _ _ => none
  newSession := fun _ => some 2
  stdinPipe := fun _ => some 3
  stdoutPipe := fun _ => some 4

/-- Sample world in which opening the command channel fails. -/
def cworldSessionFail : World where
  agentAuth := fun u => some (.agent u)
  dial := fun _ _ => some 1
  newSession := fun _ => none
  stdinPipe := fun _ => some 3
  stdoutPipe := fun _ => some 4

/-- A fresh disconnected session on the sample endpoint. -/
def cfresh : SessionState := ⟨false, cendpoint, none, none, none, none, none⟩

/-- A disconnected session whose auth was explicitly set to a password
method before connecting. -/
def cexplicit : SessionState :=
  ⟨false, cendpoint, none, none, none, none, some (.password [117] [112])⟩

/-- A session already in the connected state. -/
def cconnected : SessionState := ⟨true, cendpoint, some 1, some 2, some 3, some 4, none⟩

end GoGit

namespace GoGit

/-! ### Helper lemmas about the session model -/

theorem setAuthFromEndpoint_preserves (w : World) (s : SessionState) :
    (session.setAuthFromEndpoint w s).1.connected = s.connected ∧
    (session.setAuthFromEndpoint w s).1.endpoint = s.endpoint := by
  unfold session.setAuthFromEndpoint
  cases h : w.agentAuth (s.endpoint.user.getD []) <;> simp [h]

theorem openSSHSession_preserves (w : World) (s : SessionState) :
    (session.openSSHSession w s).1.connected = s.connected ∧
    (session.openSSHSession w s).1.client = s.client := by
  unfold session.openSSHSession
  cases h1 : w.newSession s.client with
  | none => simp [h1]
  | some ch =>
    cases h2 : w.stdinPipe (some ch) with
    | none => simp [h1, h2]
    | some si =>
      cases h3 : w.stdoutPipe (some ch) <;> simp [h1, h2, h3]

/-! ### Claim theorems -/

/-- C6: for every object whose declared size is zero, `Tree.Decode` returns
no error and the resulting tree's entry mapping is empty. -/
theorem C6_zero_size_decodes_empty (o : Obj) (h : o.size = 0) :
    Tree.Decode o = .ok [] := by
  simp [Tree.Decode, h]

/-- Witness for C6 at a concrete zero-size object. -/
theorem C6_zero_size_decodes_empty_witness :
    (⟨ObjType.tree, 0, [], hT⟩ : Obj).size = 0 ∧
    Tree.Decode ⟨ObjType.tree, 0, [], hT⟩ = .ok [] :=
  ⟨rfl, C6_zero_size_decodes_empty _ rfl⟩

/-- C10: `SetAuth` with a non-SSH method returns the invalid-auth-method
error and leaves the whole session (in particular the stored auth)
unchanged; with an SSH method it stores exactly that method, returns no
error, and modifies no other field. -/
theorem C10_setAuth_behaviour (s : SessionState) (m : AuthMethod) (tg : Bytes) :
    session.SetAuth s (.other tg) = (s, some .invalidAuthMethod) ∧
    (session.SetAuth s (.sshAuth m)).2 = none ∧
    (session.SetAuth s (.sshAuth m)).1.auth = some m ∧
    (session.SetAuth s (.sshAuth m)).1.connected = s.connected ∧
    (session.SetAuth s (.sshAuth m)).1.endpoint = s.endpoint ∧
    (session.SetAuth s (.sshAuth m)).1.client = s.client ∧
    (session.SetAuth s (.sshAuth m)).1.sshSession = s.sshSession ∧
    (session.SetAuth s (.sshAuth m)).1.stdin = s.stdin ∧
    (session.SetAuth s (.sshAuth m)).1.stdout = s.stdout :=
  ⟨rfl, rfl, rfl, rfl, rfl, rfl, rfl, rfl, rfl⟩

/-- C8: `connect()` on a session in the Connected state fails with the
AlreadyConnected error and changes nothing — it is not idempotent. -/
theorem C8_connect_already_connected (w : World) (s : SessionState)
    (h : s.connected = true) :
    session.connect w s = ⟨s, some .alreadyConnected, [], []⟩ := by
  simp [session.connect, h]

/-- Witness for C8 on a concrete connected session. -/
theorem C8_connect_already_connected_witness :
    cconnected.connected = true ∧
    session.connect cworld cconnected = ⟨cconnected, some .alreadyConnected, [], []⟩ :=
  ⟨rfl, C8_connect_already_connected cworld cconnected rfl⟩

/-- C3 (code bug): connecting a session whose auth was explicitly set to a
password method nevertheless derives and stores the agent-based method
from the endpoint user — `connect` unconditionally overwrites the explicit
auth, contradicting its own doc comment. -/
theorem C3_explicit_auth_overwritten :
    (session.connect cworld cexplicit).state.auth = some (.agent [103, 105, 116]) ∧
    (session.connect cworld cexplicit).state.auth ≠ some (.password [117] [112]) ∧
    (session.connect cworld cexplicit).err = none := by
  refine ⟨rfl, ?_, rfl⟩
  decide

theorem connect_cases (w : World) (s : SessionState) (h : s.connected = false) :
    (∃ s1 e, session.setAuthFromEndpoint w s = (s1, some e) ∧
      session.connect w s = ⟨s1, some e, [], []⟩) ∨
    (∃ s1, session.setAuthFromEndpoint w s = (s1, none) ∧ s1.auth = none ∧
      session.connect w s = ⟨s1, some .agentAuthFailed, [], []⟩) ∨
    (∃ s1 a, session.setAuthFromEndpoint w s = (s1, none) ∧ s1.auth = some a ∧
      ((w.dial (session.getHostWithPort s1.endpoint) a.clientConfig = none ∧
        session.connect w s = ⟨{ s1 with client := none }, some .dialFailed, [], []⟩) ∨
      (∃ c s3 e2, w.dial (session.getHostWithPort s1.endpoint) a.clientConfig = some c ∧
        session.openSSHSession w { s1 with client := some c } = (s3, some e2) ∧
        session.connect w s = ⟨s3, some e2, [c], [c]⟩) ∨
      (∃ c s3, w.dial (session.getHostWithPort s1.endpoint) a.clientConfig = some c ∧
        session.openSSHSession w { s1 with client := some c } = (s3, none) ∧
        session.connect w s = ⟨{ s3 with connected := true }, none, [c], []⟩))) := by
  unfold session.connect
  simp only [h, Bool.false_eq_true, if_false]
  rcases hsa : session.setAuthFromEndpoint w s with ⟨s1, oe⟩
  cases oe with
  | some e => exact Or.inl ⟨s1, e, rfl, rfl⟩
  | none =>
    cases ha : s1.auth with
    | none => exact Or.inr (Or.inl ⟨s1, rfl, ha, by simp only [ha]⟩)
    | some a =>
      cases hd : w.dial (session.getHostWithPort s1.endpoint) a.clientConfig with
      | none =>
        exact Or.inr (Or.inr ⟨s1, a, rfl, ha, Or.inl ⟨hd, by simp only [ha, hd]⟩⟩)
      | some c =>
        rcases ho : session.openSSHSession w { s1 with client := some c } with ⟨s3, oe2⟩
        cases oe2 with
        | some e2 =>
          exact Or.inr (Or.inr ⟨s1, a, rfl, ha,
            Or.inr (Or.inl ⟨c, s3, e2, hd, ho, by rw [ha] at ho; simp [ha, hd, ho]⟩)⟩)
        | none =>
          exact Or.inr (Or.inr ⟨s1, a, rfl, ha,
            Or.inr (Or.inr ⟨c, s3, hd, ho, by rw [ha] at ho; simp [ha, hd, ho]⟩)⟩)

/-- C9: whenever `connect()` on a disconnected session fails (at auth
resolution, dialing, or opening the command channel), it returns a single
error, the session stays disconnected, and every network client opened
during the call has been closed. -/
theorem C9_connect_failure_rolls_back (w : World) (s : SessionState)
    (h : s.connected = false)
    (he : (session.connect w s).err.isSome) :
    (session.connect w s).state.connected = false ∧
    ∀ c ∈ (session.connect w s).opened, c ∈ (session.connect w s).closed := by
  rcases connect_cases w s h with
    ⟨s1, e, hsa, hc⟩ | ⟨s1, hsa, ha, hc⟩ |
    ⟨s1, a, hsa, ha, ⟨hd, hc⟩ | ⟨c, s3, e2, hd, ho, hc⟩ | ⟨c, s3, hd, ho, hc⟩⟩
  all_goals
    have hs1 : s1.connected = false := by
      have := (setAuthFromEndpoint_preserves w s).1
      rw [hsa] at this
      simpa [h] using this
  · rw [hc]
    exact ⟨hs1, by simp⟩
  · rw [hc]
    exact ⟨hs1, by simp⟩
  · rw [hc]
    exact ⟨hs1, by simp⟩
  · have hs3 : s3.connected = false := by
      have := (openSSHSession_preserves w { s1 with client := some c }).1
      rw [ho] at this
      simpa [hs1] using this
    rw [hc]
    exact ⟨hs3, by simp⟩
  · rw [hc] at he
    simp at he

/-- Witness for C9: a concrete session whose dial step fails. -/
theorem C9_connect_failure_rolls_back_witness :
    cfresh.connected = false ∧
    (session.connect cworldDialFail cfresh).err.isSome = true ∧
    ((session.connect cworldDialFail cfresh).state.connected = false ∧
      ∀ c ∈ (session.connect cworldDialFail cfresh).opened,
        c ∈ (session.connect cworldDialFail cfresh).closed) :=
  ⟨rfl, rfl, C9_connect_failure_rolls_back cworldDialFail cfresh rfl rfl⟩

/-- C7: whenever `Tree.File` succeeds, the returned file's name is the
original path unchanged, its hash is the hash `findHash` resolved for that
path, and its size is the size of the blob decoded from the object stored at
that hash (which is blob-typed; under the content-addressing invariant the
file's hash is also the blob object's own hash). -/
theorem C7_file_success_shape (store : Store) (t : Tree) (path : Bytes)
    (f : File) (h : t.File store path = .ok f) :
    f.name = path ∧
    t.findHash store path = .ok f.hash ∧
    ∃ o, store f.hash = some o ∧ o.type = ObjType.blob ∧
      f.size = (Blob.Decode o).size ∧
      ((∀ h' o', store h' = some o' → o'.hash = h') → f.hash = o.hash) := by
  unfold Tree.File at h
  split at h
  · exact absurd h (by simp)
  · exact absurd h (by simp)
  · rename_i hh hf
    split at h
    · exact absurd h (by simp)
    · rename_i o hs
      split at h
      · rename_i ht
        injection h with h
        subst h
        exact ⟨rfl, hf, o, hs, ht, rfl, fun hinv => (hinv hh o hs).symm⟩
      · exact absurd h (by simp)

/-- Witness for C7 on the sample store: the file `a/b`. -/
theorem C7_file_success_shape_witness :
    ctree.File cstore [97, 47, 98] = .ok ⟨[97, 47, 98], hB, 5⟩ ∧
    (⟨[97, 47, 98], hB, 5⟩ : File).name = [97, 47, 98] ∧
    ctree.findHash cstore [97, 47, 98] = .ok hB ∧
    ∃ o, cstore hB = some o ∧ o.type = ObjType.blob ∧
      (⟨[97, 47, 98], hB, 5⟩ : File).size = (Blob.Decode o).size ∧
      ((∀ h' o', cstore h' = some o' → o'.hash = h') →
        (⟨[97, 47, 98], hB, 5⟩ : File).hash = o.hash) := by
  have hev : ctree.File cstore [97, 47, 98] = .ok ⟨[97, 47, 98], hB, 5⟩ := by
    simp [Tree.File, Tree.findHash, Tree.findHashLoop, Tree.dir, Tree.entry, Tree.Decode,
      splitOnByte, lookupEntry, cstore, ctree, decodeLoop, readString, parseOctInt,
      octDigits, mapInsert, subContent, hB, hT, hS, hC, pentries, Blob.Decode]
  exact ⟨hev, C7_file_success_shape cstore ctree [97, 47, 98] ⟨[97, 47, 98], hB, 5⟩ hev⟩

theorem findHashLoop_of_reaches (store : Store) (t t' : Tree)
    (segs segs' : List Bytes) (h : Reaches store t segs t' segs') :
    Tree.findHashLoop store t segs = Tree.findHashLoop store t' segs' := by
  induction h with
  | refl t segs => rfl
  | step t t' t'' p rest segs'' hne hdir hr ih =>
    rw [← ih]
    cases rest with
    | nil => exact absurd rfl hne
    | cons q qs => simp [Tree.findHashLoop, hdir]

/-- C1: whenever the descent of `Tree.File(path)` reaches a tree where the
next segment is absent from the entries, or resolves to a hash absent from
the store, or (as an intermediate segment) resolves to a non-tree object, or
(as the final segment) resolves to a non-blob object, the call returns
exactly the FileNotFound error — the model's only error outcome, mirroring
the single `ErrFileNotFound` value the code can return. -/
theorem C1_lookup_failures_give_fileNotFound (store : Store) (t : Tree)
    (path : Bytes) (t' : Tree) (p : Bytes) (rest : List Bytes)
    (hr : Reaches store t (splitOnByte 47 path) t' (p :: rest))
    (hcase :
      t'.entry p = none ∨
      (∃ e, t'.entry p = some e ∧ store e.hash = none) ∨
      (∃ e o, rest ≠ [] ∧ t'.entry p = some e ∧ store e.hash = some o ∧
        o.type ≠ ObjType.tree) ∨
      (∃ e o, rest = [] ∧ t'.entry p = some e ∧ store e.hash = some o ∧
        o.type ≠ ObjType.blob)) :
    t.File store path = .fileNotFound := by
  have hfh : Tree.findHashLoop store t (splitOnByte 47 path) =
      Tree.findHashLoop store t' (p :: rest) :=
    findHashLoop_of_reaches store t t' _ _ hr
  unfold Tree.File Tree.findHash
  rw [hfh]
  rcases hcase with hA | ⟨e, hE, hS⟩ | ⟨e, o, hne, hE, hS, hT⟩ | ⟨e, o, hnil, hE, hS, hT⟩
  · cases rest with
    | nil => simp [Tree.findHashLoop, hA]
    | cons q qs => simp [Tree.findHashLoop, Tree.dir, hA]
  · cases rest with
    | nil => simp [Tree.findHashLoop, hE, hS]
    | cons q qs => simp [Tree.findHashLoop, Tree.dir, hE, hS]
  · cases rest with
    | nil => exact absurd rfl hne
    | cons q qs => simp [Tree.findHashLoop, Tree.dir, hE, hS, hT]
  · subst hnil
    simp [Tree.findHashLoop, hE, hS, hT]

/-- Witness for C1: looking up a name absent from the sample tree's entries
returns FileNotFound. -/
theorem C1_lookup_failures_give_fileNotFound_witness :
    ctree.File cstore [120] = .fileNotFound := by
  have hsplit : splitOnByte 47 [120] = [120] :: [] := by decide
  have hr : Reaches cstore ctree (splitOnByte 47 [120]) ctree ([120] :: []) := by
    rw [hsplit]
    exact Reaches.refl ctree ([120] :: [])
  exact C1_lookup_failures_give_fileNotFound cstore ctree [120] ctree [120] [] hr
    (Or.inl (by decide))

theorem readString_not_found (c : Nat) (bs : Bytes) (h : ¬ c ∈ bs) :
    readString c bs = (bs, false, []) := by
  induction bs with
  | nil => rfl
  | cons b bs ih =>
    simp only [List.mem_cons, not_or] at h
    have hb : ¬ b = c := fun hbc => h.1 hbc.symm
    simp only [readString, if_neg hb, ih h.2]

theorem readString_to_delim (c : Nat) (a b : Bytes) (h : ¬ c ∈ a) :
    readString c (a ++ c :: b) = (a ++ [c], true, b) := by
  induction a with
  | nil => simp [readString]
  | cons x xs ih =>
    simp only [List.mem_cons, not_or] at h
    have hx : ¬ x = c := fun hxc => h.1 hxc.symm
    have ihh := ih h.2
    simp only [List.cons_append, readString, if_neg hx, List.append_eq, ihh]

theorem decodeLoop_encRecord (m n h rest : Bytes) (acc : Entries) (v : Int)
    (hm : parseOctInt m = some v) (hm32 : ¬ 32 ∈ m) (hn : ¬ 0 ∈ n)
    (hh : h.length = 20) :
    decodeLoop (encRecord m n h ++ rest) acc =
      decodeLoop rest (mapInsert acc n ⟨n, (v % (2 ^ 32 : Int)).toNat, h⟩) := by
  have h1 : readString 32 (encRecord m n h ++ rest) =
      (m ++ [32], true, n ++ 0 :: (h ++ rest)) := by
    have e1 : encRecord m n h ++ rest = m ++ 32 :: (n ++ 0 :: (h ++ rest)) := by
      simp [encRecord]
    rw [e1]
    exact readString_to_delim 32 m _ hm32
  have h2 : readString 0 (n ++ 0 :: (h ++ rest)) = (n ++ [0], true, h ++ rest) :=
    readString_to_delim 0 n _ hn
  have htake : (h ++ rest).take 20 = h := by
    rw [← hh]
    exact List.take_left h rest
  have hdrop : (h ++ rest).drop 20 = rest := by
    rw [← hh]
    exact List.drop_left h rest
  have hrep : 20 - (h ++ rest).length = 0 := by
    rw [List.length_append, hh]
    omega
  conv_lhs => rw [decodeLoop]
  rw [h1]
  simp only [dif_neg (by simp : ¬ (m ++ [32], true, n ++ 0 :: (h ++ rest)).2.1 = false)]
  simp only [List.dropLast_concat, hm, h2, htake, hdrop, hrep, List.replicate,
    List.append_nil]
  rw [if_neg (show ¬ n ++ [0] = ([] : Bytes) by simp)]

theorem decodeLoop_encRecords (rs : List (Bytes × Bytes × Bytes)) (tail : Bytes)
    (acc : Entries) (hwf : ∀ r ∈ rs, wfRecord r) :
    ∃ acc', decodeLoop (encRecords rs ++ tail) acc = decodeLoop tail acc' := by
  induction rs generalizing acc with
  | nil => exact ⟨acc, rfl⟩
  | cons r rs ih =>
    rcases r with ⟨m, n, h⟩
    have hw := hwf (m, n, h) (List.mem_cons_self _ _)
    rcases hw with ⟨hvs, hm32, hn, hh⟩
    rcases Option.isSome_iff_exists.mp hvs with ⟨v, hv⟩
    have step := decodeLoop_encRecord m n h (encRecords rs ++ tail) acc v hv hm32 hn hh
    have e : encRecords ((m, n, h) :: rs) ++ tail =
        encRecord m n h ++ (encRecords rs ++ tail) := by
      simp [encRecords]
    rw [e, step]
    exact ih _ (fun r hr => hwf r (List.mem_cons_of_mem _ hr))

theorem decodeLoop_nil (acc : Entries) : decodeLoop [] acc = .ok acc := by
  rw [decodeLoop]
  simp [readString]

theorem decodeLoop_no_space (tl : Bytes) (acc : Entries) (h32 : ¬ 32 ∈ tl) :
    decodeLoop tl acc = .ok acc := by
  rw [decodeLoop]
  simp [readString_not_found 32 tl h32]

theorem decodeLoop_ends_at_space (m : Bytes) (acc : Entries) (v : Int)
    (hm : parseOctInt m = some v) (hm32 : ¬ 32 ∈ m) :
    decodeLoop (m ++ [32]) acc = .panicked := by
  have h1 : readString 32 (m ++ [32]) = (m ++ [32], true, []) := by
    have : m ++ [32] = m ++ 32 :: ([] : Bytes) := rfl
    rw [this]
    exact readString_to_delim 32 m [] hm32
  rw [decodeLoop]
  rw [h1]
  simp only [dif_neg (by simp : ¬ (m ++ [32], true, ([] : Bytes)).2.1 = false)]
  simp only [List.dropLast_concat, hm]
  simp [readString]

theorem decodeLoop_mid_name (m nm : Bytes) (acc : Entries) (v : Int)
    (hm : parseOctInt m = some v) (hm32 : ¬ 32 ∈ m) (hnm : nm ≠ [])
    (hn0 : ¬ 0 ∈ nm) :
    ∃ es, decodeLoop (m ++ 32 :: nm) acc = .ok es := by
  have h1 : readString 32 (m ++ 32 :: nm) = (m ++ [32], true, nm) :=
    readString_to_delim 32 m nm hm32
  rw [decodeLoop]
  rw [h1]
  simp only [dif_neg (by simp : ¬ (m ++ [32], true, nm).2.1 = false)]
  simp only [List.dropLast_concat, hm]
  simp only [readString_not_found 0 nm hn0]
  rw [if_neg (show ¬ nm = ([] : Bytes) from hnm)]
  simp only [List.drop_nil]
  exact ⟨_, decodeLoop_nil _⟩

theorem decodeLoop_mid_hash (m nm hb : Bytes) (acc : Entries) (v : Int)
    (hm : parseOctInt m = some v) (hm32 : ¬ 32 ∈ m) (hn0 : ¬ 0 ∈ nm)
    (hhb : hb.length < 20) :
    ∃ es, decodeLoop (m ++ 32 :: (nm ++ 0 :: hb)) acc = .ok es := by
  have h1 : readString 32 (m ++ 32 :: (nm ++ 0 :: hb)) =
      (m ++ [32], true, nm ++ 0 :: hb) :=
    readString_to_delim 32 m _ hm32
  have h2 : readString 0 (nm ++ 0 :: hb) = (nm ++ [0], true, hb) :=
    readString_to_delim 0 nm hb hn0
  have hdrop : hb.drop 20 = [] := List.drop_eq_nil_of_le (by omega)
  rw [decodeLoop]
  rw [h1]
  simp only [dif_neg (by simp : ¬ (m ++ [32], true, nm ++ 0 :: hb).2.1 = false)]
  simp only [List.dropLast_concat, hm, h2]
  rw [if_neg (show ¬ nm ++ [0] = ([] : Bytes) by simp)]
  simp only [hdrop]
  exact ⟨_, decodeLoop_nil _⟩

/-- Counterexample to C4 as stated: an object whose stream ends in the middle
of a record's octal mode (content `"1"`, one byte into a mode, declared size
one) decodes successfully with no entries instead of failing. -/
theorem C4_mid_mode_success_counterexample :
    Tree.Decode ⟨ObjType.tree, 1, [49], List.replicate 20 8⟩ = .ok [] := by
  simp [Tree.Decode, decodeLoop, readString]

/-- C4 (amended): for a tree object stream made of well-formed records and a
trailing fragment, ending cleanly between records is a successful decode —
but ending mid-record is not a decode failure: a fragment cut inside the
octal mode (no space byte yet) is silently dropped and the decode succeeds;
a fragment cut right after the mode's space triggers a runtime panic; a
fragment cut inside the name or inside the 20 hash bytes also decodes
successfully (producing a mangled trailing entry). -/
theorem C4_truncation_behaviour (o : Obj) (rs : List (Bytes × Bytes × Bytes))
    (tail : Bytes) (hsz : o.size ≠ 0) (hwf : ∀ r ∈ rs, wfRecord r)
    (hc : o.content = encRecords rs ++ tail) :
    (tail = [] → ∃ es, Tree.Decode o = .ok es) ∧
    (tail ≠ [] → ¬ 32 ∈ tail → ∃ es, Tree.Decode o = .ok es) ∧
    (∀ m v, tail = m ++ [32] → parseOctInt m = some v → ¬ 32 ∈ m →
      Tree.Decode o = .panicked) ∧
    (∀ m v nm, tail = m ++ 32 :: nm → parseOctInt m = some v → ¬ 32 ∈ m →
      nm ≠ [] → ¬ 0 ∈ nm → ∃ es, Tree.Decode o = .ok es) ∧
    (∀ m v nm hb, tail = m ++ 32 :: (nm ++ 0 :: hb) → parseOctInt m = some v →
      ¬ 32 ∈ m → ¬ 0 ∈ nm → hb.length < 20 → ∃ es, Tree.Decode o = .ok es) := by
  have hdec : Tree.Decode o = decodeLoop (encRecords rs ++ tail) [] := by
    simp [Tree.Decode, hsz, hc]
  obtain ⟨acc', hacc⟩ := decodeLoop_encRecords rs tail [] hwf
  rw [hdec, hacc]
  refine ⟨?_, ?_, ?_, ?_, ?_⟩
  · intro ht
    subst ht
    exact ⟨acc', decodeLoop_nil acc'⟩
  · intro _ h32
    exact ⟨acc', decodeLoop_no_space tail acc' h32⟩
  · intro m v ht hm hm32
    subst ht
    exact decodeLoop_ends_at_space m acc' v hm hm32
  · intro m v nm ht hm hm32 hnm hn0
    subst ht
    exact decodeLoop_mid_name m nm acc' v hm hm32 hnm hn0
  · intro m v nm hb ht hm hm32 hn0 hhb
    subst ht
    exact decodeLoop_mid_hash m nm hb acc' v hm hm32 hn0 hhb

/-- Witness for C4 (amended), combining a clean ending (record list with
empty tail: success) and a mid-mode truncation after one full record (also
success). -/
theorem C4_truncation_behaviour_witness :
    (∃ es, Tree.Decode ⟨ObjType.tree, 31,
      encRecords [([49, 48, 48, 54, 52, 52], [97], List.replicate 20 7)] ++ [],
      hT⟩ = .ok es) ∧
    (∃ es, Tree.Decode ⟨ObjType.tree, 33,
      encRecords [([49, 48, 48, 54, 52, 52], [97], List.replicate 20 7)] ++ [49, 48],
      hT⟩ = .ok es) := by
  constructor
  · exact (C4_truncation_behaviour _ _ [] (by decide) (by decide) rfl).1 rfl
  · exact ((C4_truncation_behaviour _ _ [49, 48] (by decide) (by decide) rfl).2.1
      (by decide) (by decide))

theorem splitOnByte_ne_nil (c : Nat) (p : Bytes) : splitOnByte c p ≠ [] := by
  cases p with
  | nil => simp [splitOnByte]
  | cons b bs =>
    simp only [splitOnByte]
    cases h : splitOnByte c bs with
    | nil => simp
    | cons s ss =>
      by_cases hb : b = c <;> simp [hb]

theorem joinSegs_splitOnByte (p : Bytes) : joinSegs (splitOnByte 47 p) = p := by
  induction p with
  | nil => rfl
  | cons b bs ih =>
    simp only [splitOnByte]
    cases h : splitOnByte 47 bs with
    | nil => exact absurd h (splitOnByte_ne_nil 47 bs)
    | cons s ss =>
      rw [h] at ih
      by_cases hb : b = 47
      · subst hb
        simp only [if_pos rfl]
        cases ss with
        | nil => simp [joinSegs] at ih ⊢; rw [ih]
        | cons s' ss' => simp [joinSegs] at ih ⊢; rw [ih]
      · simp only [if_neg hb]
        cases ss with
        | nil => simp [joinSegs] at ih ⊢; rw [ih]
        | cons s' ss' =>
          simp only [joinSegs] at ih ⊢
          rw [List.cons_append, ih]

theorem splitOnByte_append (c : Nat) (a b : Bytes) :
    splitOnByte c (a ++ c :: b) = splitOnByte c a ++ splitOnByte c b := by
  induction a with
  | nil =>
    simp only [List.nil_append, splitOnByte]
    cases h : splitOnByte c b with
    | nil => exact absurd h (splitOnByte_ne_nil c b)
    | cons s ss => simp
  | cons x xs ih =>
    simp only [List.cons_append, splitOnByte, List.append_eq]
    cases h : splitOnByte c xs with
    | nil => exact absurd h (splitOnByte_ne_nil c xs)
    | cons s ss =>
      rw [ih, h]
      by_cases hx : x = c <;> simp [hx]

theorem splitOnByte_no_delim (c : Nat) (p : Bytes) (h : ¬ c ∈ p) :
    splitOnByte c p = [p] := by
  induction p with
  | nil => rfl
  | cons b bs ih =>
    simp only [List.mem_cons, not_or] at h
    have hb : ¬ b = c := fun hbc => h.1 hbc.symm
    simp only [splitOnByte, ih h.2, if_neg hb]

theorem cleanStep_wf (rooted : Bool) (acc : List Bytes) (s : Bytes)
    (h : wfSeg s) : cleanStep rooted acc s = s :: acc := by
  rcases h with ⟨h1, _, h3, h4⟩
  unfold cleanStep
  rw [if_neg (by simp [h1, h3]), if_neg h4]

theorem foldl_cleanStep_wf (rooted : Bool) (segs : List Bytes)
    (acc : List Bytes) (h : ∀ s ∈ segs, wfSeg s) :
    segs.foldl (cleanStep rooted) acc = segs.reverse ++ acc := by
  induction segs generalizing acc with
  | nil => rfl
  | cons s ss ih =>
    rw [List.foldl_cons, cleanStep_wf rooted acc s (h s (List.mem_cons_self _ _)),
      ih (s :: acc) (fun x hx => h x (List.mem_cons_of_mem _ hx))]
    simp

theorem clean_wf_id (p : Bytes) (h : ∀ s ∈ splitOnByte 47 p, wfSeg s) :
    clean p = p := by
  obtain ⟨s₀, ss, hsplit⟩ : ∃ s₀ ss, splitOnByte 47 p = s₀ :: ss := by
    cases hs : splitOnByte 47 p with
    | nil => exact absurd hs (splitOnByte_ne_nil 47 p)
    | cons s₀ ss => exact ⟨s₀, ss, rfl⟩
  have hwf₀ : wfSeg s₀ := h s₀ (by rw [hsplit]; exact List.mem_cons_self _ _)
  have hjoin : joinSegs (s₀ :: ss) = p := by rw [← hsplit]; exact joinSegs_splitOnByte p
  have hrooted : ¬ p.head? = some 47 := by
    cases s₀ with
    | nil => exact absurd rfl hwf₀.1
    | cons x xs =>
      have hx : x ≠ 47 := by
        intro hx
        exact hwf₀.2.1 (hx ▸ List.mem_cons_self x xs)
      have hp : p.head? = some x := by
        rw [← hjoin]
        cases ss <;> simp [joinSegs]
      rw [hp]
      simp [hx]
  unfold clean
  rw [if_neg hrooted]
  rw [hsplit, foldl_cleanStep_wf _ _ _ (by rw [← hsplit]; exact h)]
  rw [List.append_nil, List.reverse_reverse]
  rw [if_neg (by simp)]
  exact hjoin

theorem goJoin_wf (base n : Bytes) (hb : wfBase base) (hn : wfSeg n) :
    goJoin base n = if base = [] then n else base ++ 47 :: n := by
  by_cases hbe : base = []
  · subst hbe
    rw [if_pos rfl]
    unfold goJoin
    rw [if_neg (by simp), if_pos hn.1]
    exact clean_wf_id n (by
      rw [splitOnByte_no_delim 47 n hn.2.1]
      intro s hs
      rw [List.mem_singleton] at hs
      exact hs ▸ hn)
  · rw [if_neg hbe]
    have hbsegs : ∀ s ∈ splitOnByte 47 base, wfSeg s := by
      rcases hb with hb | hb
      · exact absurd hb hbe
      · exact hb
    unfold goJoin
    rw [if_pos hbe]
    exact clean_wf_id (base ++ 47 :: n) (by
      rw [splitOnByte_append, splitOnByte_no_delim 47 n hn.2.1]
      intro s hs
      rcases List.mem_append.mp hs with hs | hs
      · exact hbsegs s hs
      · rw [List.mem_singleton] at hs
        exact hs ▸ hn)

theorem splitOnByte_goJoin (base n : Bytes) (hb : wfBase base) (hn : wfSeg n) :
    splitOnByte 47 (goJoin base n) = baseSegs base ++ [n] := by
  rw [goJoin_wf base n hb hn]
  by_cases hbe : base = []
  · rw [if_pos hbe, splitOnByte_no_delim 47 n hn.2.1]
    simp [baseSegs, hbe]
  · rw [if_neg hbe, splitOnByte_append, splitOnByte_no_delim 47 n hn.2.1]
    simp [baseSegs, hbe]

theorem goJoin_ne_nil (base n : Bytes) (hb : wfBase base) (hn : wfSeg n) :
    goJoin base n ≠ [] := by
  rw [goJoin_wf base n hb hn]
  by_cases hbe : base = []
  · rw [if_pos hbe]
    exact hn.1
  · rw [if_neg hbe]
    simp

theorem wfBase_goJoin (base n : Bytes) (hb : wfBase base) (hn : wfSeg n) :
    wfBase (goJoin base n) := by
  refine Or.inr ?_
  rw [splitOnByte_goJoin base n hb hn]
  intro s hs
  rcases List.mem_append.mp hs with hs | hs
  · rcases hb with hb | hb
    · simp [baseSegs, hb] at hs
    · unfold baseSegs at hs
      split at hs
      · simp at hs
      · exact hb s hs
  · rw [List.mem_singleton] at hs
    exact hs ▸ hn

theorem baseSegs_goJoin (base n : Bytes) (hb : wfBase base) (hn : wfSeg n) :
    baseSegs (goJoin base n) = baseSegs base ++ [n] := by
  unfold baseSegs
  rw [if_neg (goJoin_ne_nil base n hb hn), splitOnByte_goJoin base n hb hn]
  rfl

theorem wfEntries_tail (n₀ : Bytes) (e₀ : TreeEntry) (rest : Entries)
    (h : wfEntries ((n₀, e₀) :: rest)) : wfEntries rest := by
  rcases h with ⟨hnd, hp⟩
  rw [List.map_cons, List.nodup_cons] at hnd
  exact ⟨hnd.2, fun p hp' => hp p (List.mem_cons_of_mem _ hp')⟩

theorem key_mem_of_pair_mem (es : Entries) (n : Bytes) (e : TreeEntry)
    (h : (n, e) ∈ es) : n ∈ es.map Prod.fst :=
  List.mem_map.mpr ⟨(n, e), h, rfl⟩

theorem lookupEntry_head (n : Bytes) (e : TreeEntry) (rest : Entries) :
    lookupEntry ((n, e) :: rest) n = some e := by
  simp [lookupEntry]

theorem lookupEntry_of_mem_nodup (es : Entries) (n : Bytes) (e : TreeEntry)
    (hnd : (es.map Prod.fst).Nodup) (hmem : (n, e) ∈ es) :
    lookupEntry es n = some e := by
  induction es with
  | nil => cases hmem
  | cons q rest ih =>
    rcases q with ⟨n₀, e₀⟩
    rw [List.map_cons, List.nodup_cons] at hnd
    rcases List.mem_cons.mp hmem with hq | hq
    · rw [Prod.mk.injEq] at hq
      rcases hq with ⟨h1, h2⟩
      subst h1
      subst h2
      exact lookupEntry_head n e rest
    · have hne : ¬ n₀ = n := by
        intro hc
        subst hc
        exact hnd.1 (key_mem_of_pair_mem rest n₀ e hq)
      simp only [lookupEntry, if_neg hne]
      exact ih hnd.2 hq

theorem findHashLoop_cons_ne (store : Store) (th th' : Hash) (n₀ : Bytes)
    (e₀ : TreeEntry) (rest : Entries) (n : Bytes) (segs : List Bytes)
    (hne : ¬ n₀ = n) :
    Tree.findHashLoop store ⟨(n₀, e₀) :: rest, th⟩ (n :: segs) =
      Tree.findHashLoop store ⟨rest, th'⟩ (n :: segs) := by
  cases segs with
  | nil => simp [Tree.findHashLoop, Tree.entry, lookupEntry, hne]
  | cons s ss => simp [Tree.findHashLoop, Tree.dir, Tree.entry, lookupEntry, hne]

theorem dir_ok (store : Store) (t : Tree) (n : Bytes) (e : TreeEntry) (o : Obj)
    (hl : lookupEntry t.entries n = some e) (hs : store e.hash = some o)
    (ht : o.type = ObjType.tree) (hnp : ¬ Tree.Decode o = .panicked) :
    t.dir store n = .ok ⟨pentries (Tree.Decode o), o.hash⟩ := by
  unfold Tree.dir Tree.entry
  simp only [hl, hs, ht, if_true]

theorem mem_mapInsert (es : Entries) (k : Bytes) (v : TreeEntry)
    (p : Bytes × TreeEntry) (h : p ∈ mapInsert es k v) :
    p = (k, v) ∨ p ∈ es := by
  induction es with
  | nil =>
    simp [mapInsert] at h
    exact Or.inl h
  | cons q rest ih =>
    rcases q with ⟨k', v'⟩
    by_cases hk : k' = k
    · simp only [mapInsert, if_pos hk, List.mem_cons] at h
      rcases h with h | h
      · exact Or.inl h
      · exact Or.inr (List.mem_cons_of_mem _ h)
    · simp only [mapInsert, if_neg hk, List.mem_cons] at h
      rcases h with h | h
      · exact Or.inr (List.mem_cons.mpr (Or.inl h))
      · rcases ih h with h' | h'
        · exact Or.inl h'
        · exact Or.inr (List.mem_cons_of_mem _ h')

theorem keys_mapInsert (es : Entries) (k : Bytes) (v : TreeEntry) (x : Bytes)
    (h : x ∈ (mapInsert es k v).map Prod.fst) :
    x ∈ es.map Prod.fst ∨ x = k := by
  rcases List.mem_map.mp h with ⟨p, hp, hx⟩
  rcases mem_mapInsert es k v p hp with h' | h'
  · right
    rw [← hx, h']
  · left
    rw [← hx]
    exact List.mem_map.mpr ⟨p, h', rfl⟩

theorem nodup_keys_mapInsert (es : Entries) (k : Bytes) (v : TreeEntry)
    (h : (es.map Prod.fst).Nodup) :
    ((mapInsert es k v).map Prod.fst).Nodup := by
  induction es with
  | nil => simp [mapInsert]
  | cons q rest ih =>
    rcases q with ⟨k', v'⟩
    rw [List.map_cons, List.nodup_cons] at h
    by_cases hk : k' = k
    · subst hk
      simp only [mapInsert, eq_self_iff_true, if_true, List.map_cons, List.nodup_cons]
      exact h
    · simp only [mapInsert, if_neg hk, List.map_cons, List.nodup_cons]
      refine ⟨?_, ih h.2⟩
      intro hc
      rcases keys_mapInsert rest k v k' hc with hc' | hc'
      · exact h.1 hc'
      · exact hk hc'

theorem names_mapInsert (es : Entries) (k : Bytes) (v : TreeEntry)
    (h : ∀ p ∈ es, p.2.name = p.1) (hv : v.name = k) :
    ∀ p ∈ mapInsert es k v, p.2.name = p.1 := by
  intro p hp
  rcases mem_mapInsert es k v p hp with h' | h'
  · subst h'
    exact hv
  · exact h p h'

theorem decodeLoop_preserves (bs : Bytes) (acc : Entries) :
    (acc.map Prod.fst).Nodup → (∀ p ∈ acc, p.2.name = p.1) →
    ((pentries (decodeLoop bs acc)).map Prod.fst).Nodup ∧
      ∀ p ∈ pentries (decodeLoop bs acc), p.2.name = p.1 := by
  induction bs, acc using decodeLoop.induct with
  | case1 bs acc hfound =>
    intro hnd hnm
    rw [decodeLoop, dif_pos hfound]
    exact ⟨hnd, hnm⟩
  | case2 bs acc hfound mode hparse =>
    intro hnd hnm
    have hparse' : parseOctInt (List.dropLast (readString 32 bs).1) = none := hparse
    rw [decodeLoop, dif_neg hfound]
    simp only [hparse']
    exact ⟨hnd, hnm⟩
  | case3 bs acc hfound mode r1 fm hparse name hname =>
    intro hnd hnm
    have hparse' : parseOctInt (List.dropLast (readString 32 bs).1) = some fm := hparse
    have hname' : (readString 0 (readString 32 bs).2.2).1 = [] := hname
    rw [decodeLoop, dif_neg hfound]
    simp only [hparse', hname', if_pos]
    exact ⟨List.nodup_nil, by simp [pentries]⟩
  | case4 bs acc hfound mode r1 fm hparse name r2 hname baseName ih =>
    intro hnd hnm
    have hparse' : parseOctInt (List.dropLast (readString 32 bs).1) = some fm := hparse
    have hname' : ¬ (readString 0 (readString 32 bs).2.2).1 = [] := hname
    rw [decodeLoop, dif_neg hfound]
    simp only [hparse', if_neg hname']
    exact ih (nodup_keys_mapInsert acc _ _ hnd)
      (names_mapInsert acc _ _ hnm rfl)

theorem wfEntries_decode (store : Store) (hsW : wfNames store) (h : Hash)
    (o : Obj) (hs : store h = some o) (ht : o.type = ObjType.tree) :
    wfEntries (pentries (Tree.Decode o)) := by
  have hpres : ((pentries (Tree.Decode o)).map Prod.fst).Nodup ∧
      ∀ p ∈ pentries (Tree.Decode o), p.2.name = p.1 := by
    unfold Tree.Decode
    by_cases hz : o.size = 0
    · rw [if_pos hz]
      exact ⟨List.nodup_nil, by simp [pentries]⟩
    · rw [if_neg hz]
      exact decodeLoop_preserves o.content [] List.nodup_nil (by simp)
  exact ⟨hpres.1, fun p hp => ⟨hpres.2 p hp, hsW h o hs ht p hp⟩⟩

theorem walkList_cons_ok (store : Store) (fuel : Nat) (base n : Bytes)
    (e : TreeEntry) (rest : Entries) (fs : List File)
    (h : walkList store fuel base ((n, e) :: rest) = .ok fs) :
    (store e.hash = none ∧ walkList store fuel base rest = .ok fs) ∨
    (∃ o fuel' fs1 fs2, store e.hash = some o ∧ o.type = ObjType.tree ∧
      fuel = fuel' + 1 ∧ ¬ Tree.Decode o = .panicked ∧
      walkList store fuel' (goJoin base e.name) (pentries (Tree.Decode o)) = .ok fs1 ∧
      walkList store fuel base rest = .ok fs2 ∧ fs = fs1 ++ fs2) ∨
    (∃ o fs2, store e.hash = some o ∧ ¬ o.type = ObjType.tree ∧
      walkList store fuel base rest = .ok fs2 ∧
      fs = ⟨goJoin base e.name, e.hash, (Blob.Decode o).size⟩ :: fs2) := by
  rw [walkList] at h
  split at h
  · rename_i hnone
    exact Or.inl ⟨hnone, h⟩
  · rename_i o hsome
    split at h
    · rename_i htree
      split at h
      · cases h
      · rename_i fuel'
        split at h
        · cases h
        · rename_i hnp
          split at h
          · rename_i fs1 hsub
            split at h
            · rename_i fs2 hrest
              injection h with h'
              exact Or.inr (Or.inl ⟨o, fuel', fs1, fs2, hsome, htree, rfl, hnp,
                hsub, hrest, h'.symm⟩)
            · rename_i r hrest
              exact absurd h (hrest fs)
          · rename_i r hsub
            exact absurd h (hsub fs)
    · rename_i htree
      split at h
      · rename_i fs2 hrest
        injection h with h'
        exact Or.inr (Or.inr ⟨o, fs2, hsome, htree, hrest, h'.symm⟩)
      · rename_i r hrest
        exact absurd h (hrest fs)

theorem sound_here (store : Store) (n₀ : Bytes) (e₀ : TreeEntry)
    (rest : Entries) (base : Bytes) (o : Obj)
    (hwf : wfEntries ((n₀, e₀) :: rest)) (hbase : wfBase base)
    (hs : store e₀.hash = some o) (ht : ¬ o.type = ObjType.tree) :
    SoundAt store ((n₀, e₀) :: rest) base
      ⟨goJoin base e₀.name, e₀.hash, (Blob.Decode o).size⟩ := by
  have hname : e₀.name = n₀ ∧ wfSeg n₀ := hwf.2 (n₀, e₀) (List.mem_cons_self _ _)
  constructor
  · exact Leaf.here _ base n₀ e₀ o (List.mem_cons_self _ _) hs ht
  · refine ⟨n₀, e₀, [], List.mem_cons_self _ _, ?_, ?_, o, hs, ht, rfl⟩
    · show splitOnByte 47 (goJoin base e₀.name) = baseSegs base ++ [n₀]
      rw [hname.1]
      exact splitOnByte_goJoin base n₀ hbase hname.2
    · intro th
      simp [Tree.findHashLoop, Tree.entry, lookupEntry]

theorem sound_lift (store : Store) (n₀ : Bytes) (e₀ : TreeEntry)
    (rest : Entries) (base : Bytes) (f : File)
    (hwf : wfEntries ((n₀, e₀) :: rest))
    (hsound : SoundAt store rest base f) :
    SoundAt store ((n₀, e₀) :: rest) base f := by
  rcases hsound with ⟨hleaf, n, e, segs, hmem, hsplit, hfind, hobj⟩
  constructor
  · cases hleaf with
    | @here _ _ n' e' o' hm hs hP =>
      exact Leaf.here _ _ n' e' o' (List.mem_cons_of_mem _ hm) hs hP
    | @there _ _ n' e' o' _ hm hs ht hsub =>
      exact Leaf.there _ _ n' e' o' f (List.mem_cons_of_mem _ hm) hs ht hsub
  · have hnd := hwf.1
    rw [List.map_cons, List.nodup_cons] at hnd
    have hne : ¬ n₀ = n := fun hc =>
      hnd.1 (by rw [hc]; exact key_mem_of_pair_mem rest n e hmem)
    refine ⟨n, e, segs, List.mem_cons_of_mem _ hmem, hsplit, ?_, hobj⟩
    intro th
    rw [findHashLoop_cons_ne store th th n₀ e₀ rest n segs hne]
    exact hfind th

theorem sound_push (store : Store) (n₀ : Bytes) (e₀ : TreeEntry)
    (rest : Entries) (base : Bytes) (f : File) (o : Obj)
    (hwf : wfEntries ((n₀, e₀) :: rest)) (hbase : wfBase base)
    (hs : store e₀.hash = some o) (ht : o.type = ObjType.tree)
    (hnp : ¬ Tree.Decode o = .panicked)
    (hsub : SoundAt store (pentries (Tree.Decode o)) (goJoin base e₀.name) f) :
    SoundAt store ((n₀, e₀) :: rest) base f := by
  have hname : e₀.name = n₀ ∧ wfSeg n₀ := hwf.2 (n₀, e₀) (List.mem_cons_self _ _)
  rcases hsub with ⟨hleaf, n, e, segs, hmem, hsplit, hfind, hobj⟩
  constructor
  · exact Leaf.there _ base n₀ e₀ o f (List.mem_cons_self _ _) hs ht hleaf
  · refine ⟨n₀, e₀, n :: segs, List.mem_cons_self _ _, ?_, ?_, hobj⟩
    · rw [hsplit, baseSegs_goJoin base e₀.name hbase (by rw [hname.1]; exact hname.2)]
      rw [hname.1, List.append_assoc]
      rfl
    · intro th
      have hdir : Tree.dir ⟨(n₀, e₀) :: rest, th⟩ store n₀ =
          .ok ⟨pentries (Tree.Decode o), o.hash⟩ :=
        dir_ok store ⟨(n₀, e₀) :: rest, th⟩ n₀ e₀ o (lookupEntry_head n₀ e₀ rest)
          hs ht hnp
      simp only [Tree.findHashLoop, hdir]
      exact hfind o.hash

theorem walk_sound (store : Store) (hsW : wfNames store) :
    ∀ fuel base es fs, walkList store fuel base es = .ok fs →
      wfEntries es → wfBase base → ∀ f ∈ fs, SoundAt store es base f := by
  intro fuel
  induction fuel using Nat.strong_induction_on with
  | _ fuel ihf =>
    intro base es
    induction es generalizing base with
    | nil =>
      intro fs hok hwf hbase f hf
      rw [walkList] at hok
      injection hok with h'
      subst h'
      cases hf
    | cons q rest ihes =>
      rcases q with ⟨n₀, e₀⟩
      intro fs hok hwf hbase f hf
      rcases walkList_cons_ok store fuel base n₀ e₀ rest fs hok with
        ⟨hnone, hrest⟩ |
        ⟨o, fuel', fs1, fs2, hs, ht, hfuel, hnp, hsub, hrest, hfs⟩ |
        ⟨o, fs2, hs, ht, hrest, hfs⟩
      · exact sound_lift store n₀ e₀ rest base f hwf
          (ihes base fs hrest (wfEntries_tail n₀ e₀ rest hwf) hbase f hf)
      · subst hfs
        rcases List.mem_append.mp hf with hf1 | hf2
        · have hname : e₀.name = n₀ ∧ wfSeg n₀ :=
            hwf.2 (n₀, e₀) (List.mem_cons_self _ _)
          have hwfsub : wfEntries (pentries (Tree.Decode o)) :=
            wfEntries_decode store hsW e₀.hash o hs ht
          have hbsub : wfBase (goJoin base e₀.name) :=
            wfBase_goJoin base e₀.name hbase (by rw [hname.1]; exact hname.2)
          have hsound := ihf fuel' (by omega) (goJoin base e₀.name)
            (pentries (Tree.Decode o)) fs1 hsub hwfsub hbsub f hf1
          exact sound_push store n₀ e₀ rest base f o hwf hbase hs ht hnp hsound
        · exact sound_lift store n₀ e₀ rest base f hwf
            (ihes base fs2 hrest (wfEntries_tail n₀ e₀ rest hwf) hbase f hf2)
      · subst hfs
        rcases List.mem_cons.mp hf with hf0 | hf2
        · subst hf0
          exact sound_here store n₀ e₀ rest base o hwf hbase hs ht
        · exact sound_lift store n₀ e₀ rest base f hwf
            (ihes base fs2 hrest (wfEntries_tail n₀ e₀ rest hwf) hbase f hf2)

theorem walk_emits_leaf (store : Store) (fuel : Nat) (base : Bytes)
    (es : Entries) (fs : List File) (n : Bytes) (e : TreeEntry) (o : Obj)
    (hok : walkList store fuel base es = .ok fs) (hmem : (n, e) ∈ es)
    (hs : store e.hash = some o) (ht : ¬ o.type = ObjType.tree) :
    (⟨goJoin base e.name, e.hash, (Blob.Decode o).size⟩ : File) ∈ fs := by
  induction es generalizing fs with
  | nil => cases hmem
  | cons q rest ih =>
    rcases q with ⟨n₀, e₀⟩
    rcases walkList_cons_ok store fuel base n₀ e₀ rest fs hok with
      ⟨hnone, hrest⟩ |
      ⟨o', fuel', fs1, fs2, hs', ht', hfuel, hnp, hsub, hrest, hfs⟩ |
      ⟨o', fs2, hs', ht', hrest, hfs⟩
    · rcases List.mem_cons.mp hmem with hq | hq
      · rw [Prod.mk.injEq] at hq
        rw [← hq.2] at hnone
        rw [hs] at hnone
        cases hnone
      · exact ih _ hrest hq
    · rcases List.mem_cons.mp hmem with hq | hq
      · rw [Prod.mk.injEq] at hq
        rw [← hq.2] at hs'
        rw [hs] at hs'
        injection hs' with hs''
        rw [← hs''] at ht'
        exact absurd ht' ht
      · subst hfs
        exact List.mem_append.mpr (Or.inr (ih _ hrest hq))
    · subst hfs
      rcases List.mem_cons.mp hmem with hq | hq
      · rw [Prod.mk.injEq] at hq
        rw [← hq.2] at hs'
        rw [hs] at hs'
        injection hs' with hs''
        rw [hq.2, hs'']
        exact List.mem_cons_self _ _
      · exact List.mem_cons_of_mem _ (ih _ hrest hq)

theorem walk_enters_subtree (store : Store) (fuel : Nat) (base : Bytes)
    (es : Entries) (fs : List File) (n : Bytes) (e : TreeEntry) (o : Obj)
    (hok : walkList store fuel base es = .ok fs) (hmem : (n, e) ∈ es)
    (hs : store e.hash = some o) (ht : o.type = ObjType.tree) :
    ∃ fuel' fs1,
      walkList store fuel' (goJoin base e.name) (pentries (Tree.Decode o)) = .ok fs1 ∧
      ∀ g ∈ fs1, g ∈ fs := by
  induction es generalizing fs with
  | nil => cases hmem
  | cons q rest ih =>
    rcases q with ⟨n₀, e₀⟩
    rcases walkList_cons_ok store fuel base n₀ e₀ rest fs hok with
      ⟨hnone, hrest⟩ |
      ⟨o', fuel', fs1, fs2, hs', ht', hfuel, hnp, hsub, hrest, hfs⟩ |
      ⟨o', fs2, hs', ht', hrest, hfs⟩
    · rcases List.mem_cons.mp hmem with hq | hq
      · rw [Prod.mk.injEq] at hq
        rw [← hq.2] at hnone
        rw [hs] at hnone
        cases hnone
      · exact ih _ hrest hq
    · rcases List.mem_cons.mp hmem with hq | hq
      · rw [Prod.mk.injEq] at hq
        rw [← hq.2] at hs'
        rw [hs] at hs'
        injection hs' with hs''
        subst hfs
        refine ⟨fuel', fs1, ?_, fun g hg => List.mem_append.mpr (Or.inl hg)⟩
        rw [hq.2, hs'']
        exact hsub
      · subst hfs
        obtain ⟨fuel'', fs1', hws, hsubset⟩ := ih _ hrest hq
        exact ⟨fuel'', fs1', hws,
          fun g hg => List.mem_append.mpr (Or.inr (hsubset g hg))⟩
    · rcases List.mem_cons.mp hmem with hq | hq
      · rw [Prod.mk.injEq] at hq
        rw [← hq.2] at hs'
        rw [hs] at hs'
        injection hs' with hs''
        rw [← hs''] at ht'
        exact absurd ht ht'
      · subst hfs
        obtain ⟨fuel'', fs1', hws, hsubset⟩ := ih _ hrest hq
        exact ⟨fuel'', fs1', hws,
          fun g hg => List.mem_cons_of_mem _ (hsubset g hg)⟩

theorem walk_complete (store : Store) (es : Entries) (base : Bytes) (f : File)
    (hleaf : Leaf store (fun ty => ¬ ty = ObjType.tree) es base f) :
    ∀ fuel fs, walkList store fuel base es = .ok fs → f ∈ fs := by
  induction hleaf with
  | @here es' b n e o hm hs hP =>
    intro fuel fs hok
    exact walk_emits_leaf store fuel b es' fs n e o hok hm hs hP
  | @there es' b n e o f' hm hs ht hsub ih =>
    intro fuel fs hok
    obtain ⟨fuel', fs1, hws, hsubset⟩ :=
      walk_enters_subtree store fuel b es' fs n e o hok hm hs ht
    exact hsubset f' (ih fuel' fs1 hws)

theorem leaf_hash_type (store : Store) (P : ObjType → Prop) (es : Entries)
    (base : Bytes) (f : File) (h : Leaf store P es base f) :
    ∃ o, store f.hash = some o ∧ P o.type := by
  induction h with
  | @here es' b n e o hm hs hP => exact ⟨o, hs, hP⟩
  | @there es' b n e o f' hm hs ht hsub ih => exact ih

theorem ctree_files_eval : ctree.Files cstore 2 = .ok cfiles := by
  simp [Tree.Files, walkList, goJoin, clean, splitOnByte, joinSegs, cleanStep,
    cstore, ctree, cfiles, Tree.Decode, decodeLoop, readString, parseOctInt,
    octDigits, mapInsert, pentries, subContent, hB, hT, hS, hC, Blob.Decode,
    dotSeg, dotdotSeg]

theorem wfNames_cstore : wfNames cstore := by
  intro h o hso ht p hp
  unfold cstore at hso
  split_ifs at hso with h1 h2 h3
  · injection hso with hso'
    rw [← hso'] at ht
    exact absurd ht (by decide)
  · injection hso with hso'
    rw [← hso'] at hp
    have hdec : pentries (Tree.Decode ⟨ObjType.tree, subContent.length,
        subContent, hT⟩) = [([98], ⟨[98], 33188, hB⟩)] := by
      simp [Tree.Decode, decodeLoop, readString, parseOctInt, octDigits,
        mapInsert, pentries, subContent, hB]
    rw [hdec] at hp
    rw [List.mem_singleton] at hp
    rw [hp]
    decide
  · injection hso with hso'
    rw [← hso'] at ht
    exact absurd ht (by decide)

theorem wfEntries_ctree : wfEntries ctree.entries := by
  constructor
  · decide
  · decide

theorem walk_nodup (store : Store) (hsW : wfNames store) :
    ∀ fuel base es fs, walkList store fuel base es = .ok fs →
      wfEntries es → wfBase base → (fs.map File.name).Nodup := by
  intro fuel
  induction fuel using Nat.strong_induction_on with
  | _ fuel ihf =>
    intro base es
    induction es generalizing base with
    | nil =>
      intro fs hok hwf hbase
      rw [walkList] at hok
      injection hok with h'
      subst h'
      simp
    | cons q rest ihes =>
      rcases q with ⟨n₀, e₀⟩
      intro fs hok hwf hbase
      have hname : e₀.name = n₀ ∧ wfSeg n₀ :=
        hwf.2 (n₀, e₀) (List.mem_cons_self _ _)
      have hnd := hwf.1
      rw [List.map_cons, List.nodup_cons] at hnd
      rcases walkList_cons_ok store fuel base n₀ e₀ rest fs hok with
        ⟨hnone, hrest⟩ |
        ⟨o, fuel', fs1, fs2, hs, ht, hfuel, hnp, hsub, hrest, hfs⟩ |
        ⟨o, fs2, hs, ht, hrest, hfs⟩
      · exact ihes base fs hrest (wfEntries_tail n₀ e₀ rest hwf) hbase
      · subst hfs
        have hwfsub : wfEntries (pentries (Tree.Decode o)) :=
          wfEntries_decode store hsW e₀.hash o hs ht
        have hbsub : wfBase (goJoin base e₀.name) :=
          wfBase_goJoin base e₀.name hbase (by rw [hname.1]; exact hname.2)
        rw [List.map_append, List.nodup_append]
        refine ⟨ihf fuel' (by omega) (goJoin base e₀.name)
            (pentries (Tree.Decode o)) fs1 hsub hwfsub hbsub,
          ihes base fs2 hrest (wfEntries_tail n₀ e₀ rest hwf) hbase, ?_⟩
        intro x hx1 hx2
        rcases List.mem_map.mp hx1 with ⟨f1, hf1, hx1n⟩
        rcases List.mem_map.mp hx2 with ⟨f2, hf2, hx2n⟩
        obtain ⟨_, n1, e1, s1, _, hsp1, _, _⟩ :=
          walk_sound store hsW fuel' (goJoin base e₀.name)
            (pentries (Tree.Decode o)) fs1 hsub hwfsub hbsub f1 hf1
        obtain ⟨_, n2, e2, s2, hm2, hsp2, _, _⟩ :=
          walk_sound store hsW fuel base rest fs2 hrest
            (wfEntries_tail n₀ e₀ rest hwf) hbase f2 hf2
        rw [baseSegs_goJoin base e₀.name hbase (by rw [hname.1]; exact hname.2),
          hname.1] at hsp1
        have hnames : f1.name = f2.name := by rw [hx1n, hx2n]
        rw [hnames, hsp2] at hsp1
        rw [List.append_assoc] at hsp1
        have := List.append_cancel_left hsp1.symm
        injection this with hkey
        exact hnd.1 (by rw [hkey]; exact key_mem_of_pair_mem rest n2 e2 hm2)
      · subst hfs
        rw [List.map_cons, List.nodup_cons]
        constructor
        · intro hx
          rcases List.mem_map.mp hx with ⟨f2, hf2, hx2n⟩
          obtain ⟨_, n2, e2, s2, hm2, hsp2, _, _⟩ :=
            walk_sound store hsW fuel base rest fs2 hrest
              (wfEntries_tail n₀ e₀ rest hwf) hbase f2 hf2
          have hsp0 : splitOnByte 47
              (⟨goJoin base e₀.name, e₀.hash, (Blob.Decode o).size⟩ : File).name =
              baseSegs base ++ [n₀] := by
            show splitOnByte 47 (goJoin base e₀.name) = baseSegs base ++ [n₀]
            rw [hname.1]
            exact splitOnByte_goJoin base n₀ hbase hname.2
          rw [hx2n] at hsp2
          rw [hsp2] at hsp0
          have := List.append_cancel_left hsp0.symm
          injection this with hkey
          refine hnd.1 ?_
          show n₀ ∈ List.map Prod.fst rest
          rw [hkey]
          exact key_mem_of_pair_mem rest n2 e2 hm2
        · exact ihes base fs2 hrest (wfEntries_tail n₀ e₀ rest hwf) hbase

/-- C5 (amended): for a traversal that completes (the producer closes the
channel), over a store whose decoded tree entry names are clean-neutral path
segments and a root tree with well-formed entries, the set of emitted files
is exactly the set of non-tree leaves (blob, commit or tag typed) reachable
through the store — entries whose hash is absent from the store are silently
skipped, contribute nothing, and never cause an error; no emitted path
refers to a tree object; and no path is emitted twice. -/
theorem C5_files_set (store : Store) (t : Tree) (fuel : Nat) (fs : List File)
    (hok : t.Files store fuel = .ok fs) (hsW : wfNames store)
    (hroot : wfEntries t.entries) :
    (∀ f, f ∈ fs ↔ Leaf store (fun ty => ¬ ty = ObjType.tree) t.entries [] f) ∧
    (∀ f ∈ fs, ∃ o, store f.hash = some o ∧ ¬ o.type = ObjType.tree) ∧
    (fs.map File.name).Nodup := by
  have hbase : wfBase ([] : Bytes) := Or.inl rfl
  have hok' : walkList store fuel [] t.entries = .ok fs := hok
  refine ⟨fun f => ⟨?_, ?_⟩, ?_, ?_⟩
  · intro hf
    exact (walk_sound store hsW fuel [] t.entries fs hok' hroot hbase f hf).1
  · intro hleaf
    exact walk_complete store t.entries [] f hleaf fuel fs hok'
  · intro f hf
    exact leaf_hash_type store _ t.entries [] f
      (walk_sound store hsW fuel [] t.entries fs hok' hroot hbase f hf).1
  · exact walk_nodup store hsW fuel [] t.entries fs hok' hroot hbase

/-- Counterexample to C5 as stated: the sample traversal emits the file at
path `c`, whose stored object is commit-typed, but that file is not a blob
leaf of the tree — so the emitted set differs from the set of blob leaves. -/
theorem C5_emits_non_blob_counterexample :
    ctree.Files cstore 2 = .ok cfiles ∧
    (⟨[99], hC, 9⟩ : File) ∈ cfiles ∧
    ¬ Leaf cstore (fun ty => ty = ObjType.blob) ctree.entries []
      ⟨[99], hC, 9⟩ := by
  refine ⟨ctree_files_eval, by decide, ?_⟩
  intro h
  obtain ⟨o, ho, hb⟩ := leaf_hash_type cstore _ ctree.entries [] _ h
  have hev : cstore (⟨[99], hC, 9⟩ : File).hash =
      some ⟨ObjType.commit, 9, [], hC⟩ := by decide
  rw [hev] at ho
  injection ho with ho'
  rw [← ho'] at hb
  exact absurd hb (by decide)

/-- Witness for C5 (amended) on the sample store and tree. -/
theorem C5_files_set_witness :
    (∀ f, f ∈ cfiles ↔
      Leaf cstore (fun ty => ¬ ty = ObjType.tree) ctree.entries [] f) ∧
    (∀ f ∈ cfiles, ∃ o, cstore f.hash = some o ∧ ¬ o.type = ObjType.tree) ∧
    (cfiles.map File.name).Nodup :=
  C5_files_set cstore ctree 2 cfiles ctree_files_eval wfNames_cstore wfEntries_ctree

/-- C2 (amended): every file emitted by a completed traversal whose hash
resolves to a blob-typed object round-trips — `Tree.File` on the emitted
name succeeds and returns a file with that name, hash and size.  (As
originally stated the claim fails: `Files` also emits commit- or tag-typed
leaves, which `File` rejects with FileNotFound.) -/
theorem C2_roundtrip (store : Store) (t : Tree) (fuel : Nat) (fs : List File)
    (f : File) (o : Obj) (hok : t.Files store fuel = .ok fs) (hf : f ∈ fs)
    (hsW : wfNames store) (hroot : wfEntries t.entries)
    (hblob : store f.hash = some o) (hbt : o.type = ObjType.blob) :
    t.File store f.name = .ok ⟨f.name, f.hash, f.size⟩ := by
  have hbase : wfBase ([] : Bytes) := Or.inl rfl
  have hok' : walkList store fuel [] t.entries = .ok fs := hok
  obtain ⟨_, n, e, segs, hmem, hsplit, hfind, o', ho', hnt, hsz⟩ :=
    walk_sound store hsW fuel [] t.entries fs hok' hroot hbase f hf
  have hsplit' : splitOnByte 47 f.name = n :: segs := by
    simpa [baseSegs] using hsplit
  have hfh : Tree.findHashLoop store t (n :: segs) = .ok f.hash := hfind t.hash
  have ho2 : o' = o := by
    rw [hblob] at ho'
    exact (Option.some.inj ho').symm
  unfold Tree.File Tree.findHash
  rw [hsplit', hfh]
  simp only [hblob, hbt, eq_self_iff_true, if_true]
  show FileOutcome.ok ⟨f.name, f.hash, (Blob.Decode o).size⟩ =
    FileOutcome.ok ⟨f.name, f.hash, f.size⟩
  rw [show (Blob.Decode o).size = o.size from rfl, ← ho2, ← hsz]

/-- Counterexample to C2 as stated: `Files` on the sample tree emits the
commit-typed entry at path `c`, but `File("c")` returns FileNotFound instead
of succeeding with that file's hash and size. -/
theorem C2_commit_entry_counterexample :
    ctree.Files cstore 2 = .ok cfiles ∧
    (⟨[99], hC, 9⟩ : File) ∈ cfiles ∧
    ctree.File cstore [99] = .fileNotFound := by
  refine ⟨ctree_files_eval, by decide, ?_⟩
  simp [Tree.File, Tree.findHash, Tree.findHashLoop, Tree.entry, lookupEntry,
    splitOnByte, cstore, ctree, hB, hT, hS, hC]

/-- Witness for C2 (amended): the blob leaf `a/b` of the sample tree
round-trips through `File`. -/
theorem C2_roundtrip_witness :
    ctree.File cstore [97, 47, 98] =
      .ok ⟨[97, 47, 98], hB, 5⟩ :=
  C2_roundtrip cstore ctree 2 cfiles ⟨[97, 47, 98], hB, 5⟩
    ⟨ObjType.blob, 5, [1, 2, 3, 4, 5], hB⟩ ctree_files_eval (by decide)
    wfNames_cstore wfEntries_ctree (by decide) rfl

end GoGit
